import Mathlib

/-!
Shallow embedding of `src/init.rs` from `wapm-cli`: the interactive wizard
that assembles a `wapm.toml` manifest (validators, the retry prompt loop,
the manifest seed, the module-collection loop, confirmation-and-persist,
and the `.gitignore` updater), together with theorems settling the
specification claims about it.

Conventions of the embedding:
* Rust `String`/`PathBuf` are both modelled as Lean `String` (paths in the
  program are plain UTF-8 strings; `to_str().unwrap()` on them never fails,
  so it is the identity here).
* Fallible Rust functions returning `Result<T, E>` become `Except String T`
  (every error type in `init.rs` is only ever used through `Display`).
* The interactive console is modelled as a script: a list of answers that
  prompts consume in order.  A free-text prompt consumes an `Ans.line`, the
  ABI `Select` consumes an `Ans.sel` carrying the chosen item index.
  Running out of script, or a script whose next answer has the wrong shape
  for the pending prompt, yields `none` (the real program would simply
  block on the terminal; no value is produced).
* Rust panics (`unwrap` on `None`) are modelled as `none` results.
-/

namespace WapmInit

/-- Model of Rust `str::ends_with`: byte suffix test, here on the char list
underlying the string (the needle `".wasm"` is ASCII, so byte and char
suffixes agree). -/
def strEndsWith (s suf : String) : Bool :=
  List.isSuffixOf suf.data s.data

/-- Splits a character list at every occurrence of `c`.  The result is the
list of (possibly empty) segments between separators and is never empty.
This is the common core used to model Rust `str::lines` (with `c = '\n'`)
and `Path` component decomposition (with `c = '/'`). -/
def splitCh (c : Char) : List Char → List (List Char)
  | [] => [[]]
  | x :: xs =>
    match splitCh c xs with
    | [] => [[]]
    | h :: t => if x = c then [] :: h :: t else (x :: h) :: t

/-- Path components in the sense of Rust `std::path`: `/`-separated
segments, with empty segments and `"."` segments dropped (Rust's
`Components` normalisation). -/
def pathComponents (s : String) : List (List Char) :=
  (splitCh '/' s.data).filter (fun seg => !(seg.isEmpty) && seg ≠ ['.'])

/-- Model of Rust `Path::file_name`: the last normal component; `none` when
there is no component at all or the path terminates in `".."`. -/
def fileNameOf (s : String) : Option (List Char) :=
  match (pathComponents s).getLast? with
  | some seg => if seg = ['.', '.'] then none else some seg
  | none => none

/-- Strips the extension from a file name, per Rust `Path::file_stem`: the
portion before the last `'.'`, except that a `'.'` in first position (a
hidden file with no further dot) does not count as an extension separator. -/
def stemOfName (n : List Char) : List Char :=
  let suffLen := (n.reverse.takeWhile (fun c => c ≠ '.')).length
  if suffLen + 1 < n.length then n.take (n.length - suffLen - 1) else n

/-- The derivation of the default module name in the loop body
(`Path::new(&module.source).file_stem().unwrap().to_str().unwrap()`):
`none` models the `unwrap` panic when `file_stem` is absent. -/
def defaultNameOf (s : String) : Option String :=
  (fileNameOf s).map (fun n => String.mk (stemOfName n))

/-! ### Validators (`init.rs` lines 79-91) -/

/-- `validate_wasm_source`: accepts the literal `"none"` or any string
ending in `".wasm"`, returning the input as the path. -/
def validate_wasm_source (source : String) : Except String String :=
  if source = "none" ∨ strEndsWith source ".wasm" then Except.ok source
  else Except.error "The module source path must have a .wasm extension"

/-- `validate_commands`: the empty string is accepted as-is, anything else
is delegated to `util::validate_name`.  `util::validate_name` lives outside
`src/`, so it is passed in as a parameter `vName` throughout. -/
def validate_commands (vName : String → Except String String)
    (command_names : String) : Except String String :=
  if command_names = "" then Except.ok command_names else vName command_names

/-! ### The console model and the prompt loop (`init.rs` lines 36-77) -/

/-- One scripted console answer: a typed line for an `Input` prompt, or a
selected item index for a `Select` prompt. -/
inductive Ans where
  | line : String → Ans
  | sel : Nat → Ans
deriving DecidableEq, Repr

/-- `ask`: presents a prompt whose default is `d` and reads one line.
An empty typed line yields the default (that is `dialoguer::Input` with
`.default`; when no default was supplied the code installs `""`), and an
empty resulting value is reported as `none` (Rust `Ok(None)`). -/
def ask (d : Option String) (typed : String) : Option String :=
  let value := if typed = "" then d.getD "" else typed
  if value = "" then none else some value

/-- `ask_until_valid`: repeatedly `ask` (the validator receiving `""` for
an absent value, as in `input.unwrap_or("")`), printing each rejection
message and retrying with the same default, until the validator accepts.
Returns the accepted value, the unconsumed script, and the rejection
messages printed along the way.  `none` models an exhausted (or
wrongly-shaped) script: the real loop would still be blocked reading the
terminal — it has no attempt limit and never returns a rejection. -/
def ask_until_valid {α : Type} (validator : String → Except String α)
    (d : Option String) : List Ans → Option (α × List Ans × List String)
  | [] => none
  | Ans.sel _ :: _ => none
  | Ans.line typed :: rest =>
    match validator ((ask d typed).getD "") with
    | Except.error e =>
      match ask_until_valid validator d rest with
      | none => none
      | some (v, rem, msgs) => some (v, rem, e :: msgs)
    | Except.ok v => some (v, rest, [])

/-! ### Semantic versions

Modelled from the spec: the `semver` crate backing `Version::parse` and the
version formatter is not under `src/`.  Per the spec, the version validator
"accepts strings parseable as a semantic version (major.minor.patch plus
optional pre-release/build metadata); any parse failure is a rejection",
and accepted strings round-trip through the formatter.  The model parses
`MAJOR.MINOR.PATCH` with decimal numerals free of leading zeros, an
optional `-`-introduced pre-release chunk and an optional `+`-introduced
build chunk (alphanumerics, hyphens and dots). -/

/-- Numeric value of a decimal digit string. -/
def digitsToNat (ds : List Char) : Nat :=
  ds.foldl (fun a c => 10 * a + (c.toNat - 48)) 0

/-- Decimal rendering of a natural number (the numeral formatter used by
the version renderer). -/
def natToDigits (n : Nat) : List Char :=
  if n < 10 then [Char.ofNat (48 + n)]
  else natToDigits (n / 10) ++ [Char.ofNat (48 + n % 10)]
termination_by n
decreasing_by
  exact Nat.div_lt_self (by omega) (by omega)

/-- A valid numeric field: nonempty and without a leading zero (except the
numeral `0` itself). -/
def validNum (ds : List Char) : Bool :=
  !ds.isEmpty && (ds.length == 1 || ds.head? != some '0')

/-- Characters allowed in pre-release/build metadata chunks. -/
def validIdent (ds : List Char) : Bool :=
  !ds.isEmpty && ds.all (fun c => c.isAlphanum || c == '-' || c == '.')

/-- Parses one numeric field: the leading digit run, which must be a valid
numeral; returns its value and the rest of the input. -/
def parseNum (cs : List Char) : Option (Nat × List Char) :=
  let ds := cs.takeWhile Char.isDigit
  if validNum ds then some (digitsToNat ds, cs.dropWhile Char.isDigit)
  else none

/-- Consumes one expected character. -/
def expectChar (c : Char) : List Char → Option (List Char)
  | [] => none
  | x :: xs => if x = c then some xs else none

/-- Parses the optional pre-release chunk (everything from `'-'` up to the
`'+'` that would start build metadata). -/
def parsePre (cs : List Char) : Option (Option String × List Char) :=
  match cs with
  | [] => some (none, [])
  | '-' :: r =>
    let p := r.takeWhile (fun c => c ≠ '+')
    if validIdent p then some (some (String.mk p), r.dropWhile (fun c => c ≠ '+'))
    else none
  | '+' :: _ => some (none, cs)
  | _ => none

/-- Parses the optional build-metadata chunk, which must extend to the end
of the input. -/
def parseBuild (cs : List Char) : Option (Option String) :=
  match cs with
  | [] => some none
  | '+' :: r => if validIdent r then some (some (String.mk r)) else none
  | _ => none

/-- A parsed semantic version (the `semver::Version` value). -/
structure SemVer where
  major : Nat
  minor : Nat
  patch : Nat
  pre : Option String
  build : Option String
deriving DecidableEq, Repr

/-- `Version::parse`, modelled from the spec (see the section comment). -/
def parseVersion (s : String) : Option SemVer := do
  let (maj, r1) ← parseNum s.data
  let r2 ← expectChar '.' r1
  let (minr, r3) ← parseNum r2
  let r4 ← expectChar '.' r3
  let (pat, r5) ← parseNum r4
  let (pre, r6) ← parsePre r5
  let build ← parseBuild r6
  pure ⟨maj, minr, pat, pre, build⟩

/-- The rendered pre-release chunk: `-pre` when present, nothing
otherwise. -/
def preChunk : Option String → List Char
  | some p => '-' :: p.data
  | none => []

/-- The rendered build-metadata chunk: `+build` when present, nothing
otherwise. -/
def buildChunk : Option String → List Char
  | some b => '+' :: b.data
  | none => []

/-- The semantic-version formatter (`Version`'s `Display`). -/
def renderVersion (v : SemVer) : String :=
  String.mk
    (natToDigits v.major ++ '.' :: natToDigits v.minor ++ '.' :: natToDigits v.patch
      ++ preChunk v.pre ++ buildChunk v.build)

/-! ### Manifest data model

Modelled from the spec: `crate::data::manifest` and `crate::abi` are not
under `src/`; the fields below are the ones `init.rs` reads or writes,
with the types the spec's data model gives them. -/

/-- The execution-environment selection (`crate::abi::Abi`). -/
inductive Abi where
  | none
  | wasi
  | emscripten
deriving DecidableEq, Repr

/-- `Abi::default()`; the spec's seed uses environment `None`. -/
def abiDefault : Abi := Abi.none

/-- `WASI_LAST_VERSION` (`init.rs` line 18). -/
def wasiLastVersion : String := "0.0.0-unstable"

/-- A module entry of the manifest (interfaces model the
`HashMap<String, String>` as an association list; `init.rs` only ever
creates the singleton `wasi` entry). -/
structure Module where
  name : String
  source : String
  abi : Abi
  interfaces : Option (List (String × String))
deriving DecidableEq, Repr

/-- A command entry of the manifest. -/
structure Command where
  name : String
  module : String
  main_args : Option String
  package : Option String
deriving DecidableEq, Repr

/-- The `[package]` metadata of the manifest. -/
structure Package where
  name : String
  description : String
  version : SemVer
  repository : Option String
  license : Option String
  license_file : Option String
  homepage : Option String
  wasmer_extra_flags : Option String
  readme : Option String
  disable_command_rename : Bool
deriving DecidableEq, Repr

/-- The manifest draft assembled by the wizard. -/
structure Manifest where
  base_directory_path : String
  fs : Option (List (String × String))
  package : Package
  dependencies : Option (List (String × String))
  module : Option (List Module)
  command : Option (List Command)
deriving DecidableEq, Repr

/-- The seed drafted when no manifest file exists in `dir` (`init.rs`
lines 102-133).  `none` models the panic of `file_name().unwrap()` when
the directory path has no final normal component.  The version field
mirrors `Version::parse("1.0.0").unwrap()`; the `unwrap` cannot fail, so
the `getD` fallback is never taken. -/
def seedManifest (dir : String) : Option Manifest :=
  match fileNameOf dir with
  | none => none
  | some nm =>
    some
      { base_directory_path := dir
        fs := none
        package :=
          { name := String.mk nm
            description := ""
            version := (parseVersion "1.0.0").getD ⟨0, 0, 0, none, none⟩
            repository := none
            license := some "ISC"
            license_file := none
            homepage := none
            wasmer_extra_flags := none
            readme := none
            disable_command_rename := false }
        dependencies := none
        module := some [{ name := "entry", source := "entry.wasm",
                          abi := abiDefault, interfaces := none }]
        command := none }

/-! ### The module-collection loop (`init.rs` lines 166-255) -/

/-- The ABI `Select` outcome (`init.rs` lines 206-225): item 1 is WASI
(seeding the pinned `wasi` interface requirement), item 2 is Emscripten,
anything else — in particular the default item 0 — is no ABI. -/
def abiOfSel (n : Nat) : Abi × Option (List (String × String)) :=
  match n with
  | 1 => (Abi.wasi, some [("wasi", wasiLastVersion)])
  | 2 => (Abi.emscripten, none)
  | _ => (Abi.none, none)

/-- One pass of the module-collection loop, fuelled (each iteration
consumes at least one scripted answer, so `script length + 1` fuel always
suffices).  Mirrors `init.rs` lines 168-245: source prompt (default
`"entry.wasm"` for the first module, `"none"` afterwards), break on the
sentinel, default-name derivation by `file_stem` (a `none` here models
that `unwrap` panicking), name prompt, ABI selection, conditional
command prompt, and the two accumulating collections. -/
def runModuleLoop (vName : String → Except String String) :
    Nat → List Ans → List Module → List Command →
    Option (List Module × List Command × List Ans)
  | 0, _, _, _ => none
  | fuel + 1, ans, mods, cmds =>
    let defSrc := if mods.length = 0 then "entry.wasm" else "none"
    match ask_until_valid validate_wasm_source (some defSrc) ans with
    | none => none
    | some (src, ans1, _) =>
      if src = "none" then some (mods, cmds, ans1)
      else
        match defaultNameOf src with
        | none => none
        | some defName =>
          match ask_until_valid vName (some defName) ans1 with
          | none => none
          | some (nm, ans2, _) =>
            match ans2 with
            | Ans.sel n :: ans3 =>
              let (abi, ifs) := abiOfSel n
              let md : Module :=
                { name := nm, source := src, abi := abi, interfaces := ifs }
              if abi = Abi.wasi ∨ abi = Abi.emscripten then
                match ask_until_valid (validate_commands vName) (some defName) ans3 with
                | none => none
                | some (cmdText, ans4, _) =>
                  let cmds2 :=
                    if cmdText ≠ "" then
                      cmds ++ [{ name := cmdText, module := nm,
                                 main_args := none, package := none }]
                    else cmds
                  runModuleLoop vName fuel ans4 (mods ++ [md]) cmds2
              else runModuleLoop vName fuel ans3 (mods ++ [md]) cmds
            | _ => none

/-- Runs the module-collection loop on a fresh pair of collections and
finalizes the draft (`init.rs` lines 246-255): an empty collection is
stored as `None`, a nonempty one as `Some`. -/
def applyModuleLoop (vName : String → Except String String) (m : Manifest)
    (ans : List Ans) : Option (Manifest × List Ans) :=
  match runModuleLoop vName (ans.length + 1) ans [] [] with
  | none => none
  | some (mods, cmds, rest) =>
    some
      ({ m with
          module := if mods.isEmpty then none else some mods
          command := if cmds.isEmpty then none else some cmds }, rest)

/-! ### Structured sessions for the collection-loop claims -/

/-- One accepted module of an interactive session: the typed source path,
module name, ABI selection index, and (when consulted) command text. -/
structure ModPlan where
  src : String
  name : String
  abiSel : Nat
  cmd : String
deriving DecidableEq, Repr

/-- The console answers such a module consumes: source line, name line,
ABI selection, and — only when the selection is WASI or Emscripten — the
command-text line. -/
def planAnswers (p : ModPlan) : List Ans :=
  [Ans.line p.src, Ans.line p.name, Ans.sel p.abiSel]
    ++ (if p.abiSel = 1 ∨ p.abiSel = 2 then [Ans.line p.cmd] else [])

/-- The answers of a whole session's worth of modules. -/
def plansAnswers (ps : List ModPlan) : List Ans :=
  (ps.map planAnswers).flatten

/-- The `Module` the loop builds for such a plan. -/
def planModule (p : ModPlan) : Module :=
  { name := p.name, source := p.src,
    abi := (abiOfSel p.abiSel).1, interfaces := (abiOfSel p.abiSel).2 }

/-- The `Command` the loop derives for such a plan, when it derives one:
exactly when the ABI selection is WASI or Emscripten and the command text
is nonempty. -/
def planCommand (p : ModPlan) : Option Command :=
  if (p.abiSel = 1 ∨ p.abiSel = 2) ∧ p.cmd ≠ "" then
    some { name := p.cmd, module := p.name, main_args := none, package := none }
  else none

/-- Well-formedness of one plan: the typed lines are nonempty (so no
default substitution rewrites them), the source is an accepted non-sentinel
path, and the name validator accepts the name and command text verbatim. -/
def PlanOk (vName : String → Except String String) (p : ModPlan) : Prop :=
  p.src ≠ "" ∧ p.src ≠ "none" ∧ strEndsWith p.src ".wasm" = true ∧
  p.name ≠ "" ∧ vName p.name = Except.ok p.name ∧
  p.cmd ≠ "" ∧ vName p.cmd = Except.ok p.cmd

/-! ### The ignore-list updater (`init_gitignore`, `init.rs` lines 287-311) -/

/-- Strips one trailing `'\r'`, as Rust `str::lines` does per line. -/
def stripCR (l : List Char) : List Char :=
  if l.getLast? = some '\r' then l.dropLast else l

/-- Model of Rust `str::lines`: split on `'\n'`, drop the final empty
segment produced by a trailing newline, strip one `'\r'` per line. -/
def rustLines (s : String) : List (List Char) :=
  let segs := splitCh '\n' s.data
  (if segs.getLast? = some [] then segs.dropLast else segs).map stripCR

/-- Model of Rust `str::contains` with a string pattern: substring test
(decidable contiguous-infix membership). -/
def containsSub (l pat : List Char) : Bool :=
  decide (pat <:+: l)

/-- `init_gitignore`, acting on the ignore file's state (`none` = the file
does not exist).  Opening with `create(false)` fails on an absent file;
otherwise, if some line contains `"wapm_packages"` the file is left
untouched, else `"\nwapm_packages"` is appended.  The `Except.ok` payload
is the file's resulting content. -/
def init_gitignore (st : Option String) : Except String String :=
  match st with
  | none => Except.error "No such file or directory"
  | some content =>
    if (rustLines content).any (fun l => containsSub l "wapm_packages".data) then
      Except.ok content
    else Except.ok (content ++ "\nwapm_packages")

/-! ### Confirmation and persistence (`init.rs` lines 258-284) -/

/-- The files `init` can touch: the manifest file (held as the manifest
value; serialisation is an external capability) and the `.gitignore`
content. -/
structure FsState where
  manifest : Option Manifest
  gitignore : Option String
deriving DecidableEq, Repr

/-- `manifest.save()` followed by the best-effort `init_gitignore` whose
result is discarded (`#[allow(unused_must_use)]`): a failing ignore-list
update leaves the ignore file untouched and is swallowed. -/
def persistManifest (m : Manifest) (st : FsState) : FsState :=
  { manifest := some m
    gitignore :=
      match init_gitignore st.gitignore with
      | Except.ok c => some c
      | Except.error _ => st.gitignore }

/-- The tail of `init`: under force-mode persist unconditionally without
consuming any confirmation answer; otherwise consume one yes/no answer
(default yes) and persist only on acceptance, printing `"Aborted."`
otherwise.  Returns the resulting file state, whether `"Aborted."` was
printed, and the unconsumed confirmation script; the operation itself
always succeeds (`init` returns `Ok(())` on both branches). -/
def confirmAndPersist (forceYes : Bool) (m : Manifest) (st : FsState)
    (confirms : List Bool) : Option (FsState × Bool × List Bool) :=
  if forceYes then some (persistManifest m st, false, confirms)
  else
    match confirms with
    | [] => none
    | ok :: rest =>
      if ok then some (persistManifest m st, false, rest)
      else some (st, true, rest)

/-! ### Concrete fixtures, used to exercise the theorems on closed inputs -/

/-- A minimal concrete stand-in for `util::validate_name` (the external
name rule): nonempty names are accepted verbatim, the empty name is
rejected.  Only used to instantiate the `vName` parameter on concrete
sessions. -/
def sampleNameValidator (s : String) : Except String String :=
  if s = "" then Except.error "name cannot be empty" else Except.ok s

/-- A concrete manifest draft for exercising the loop theorems. -/
def sampleManifest : Manifest :=
  { base_directory_path := "mypkg"
    fs := none
    package :=
      { name := "mypkg"
        description := ""
        version := ⟨1, 0, 0, none, none⟩
        repository := none
        license := some "ISC"
        license_file := none
        homepage := none
        wasmer_extra_flags := none
        readme := none
        disable_command_rename := false }
    dependencies := none
    module := none
    command := none }

/-- A concrete two-module session: one WASI module exposing a command,
one ABI-less module whose command prompt is skipped. -/
def samplePlans : List ModPlan :=
  [{ src := "app.wasm", name := "app", abiSel := 1, cmd := "run" },
   { src := "lib.wasm", name := "lib", abiSel := 0, cmd := "x" }]

/-! ## Theorems -/

/-! ### Generic facts about `splitCh` -/

theorem splitCh_ne_nil (c : Char) (l : List Char) : splitCh c l ≠ [] := by
  cases l with
  | nil => simp [splitCh]
  | cons x xs =>
    simp only [splitCh]
    rcases h : splitCh c xs with _ | ⟨h1, t⟩
    · simp
    · by_cases hx : x = c <;> simp [hx]

theorem splitCh_length (c : Char) (l : List Char) :
    (splitCh c l).length = l.count c + 1 := by
  induction l with
  | nil => simp [splitCh]
  | cons x xs ih =>
    simp only [splitCh]
    rcases h : splitCh c xs with _ | ⟨h1, t⟩
    · exact absurd h (splitCh_ne_nil c xs)
    · rw [h] at ih
      by_cases hx : x = c
      · subst hx
        simp [List.count_cons, ih]
      · simp only [if_neg hx, List.length_cons]
        rw [List.count_cons]
        simp [hx, ← ih]

theorem splitCh_no_sep (c : Char) (l : List Char) (h : c ∉ l) :
    splitCh c l = [l] := by
  induction l with
  | nil => simp [splitCh]
  | cons x xs ih =>
    obtain ⟨hcx, hxs⟩ : ¬c = x ∧ c ∉ xs := by simpa using h
    simp only [splitCh, ih hxs]
    rw [if_neg (Ne.symm hcx)]

/-- The final segment of a split of `xs ++ ys`, when `ys` holds no
separator, is the final segment of the split of `xs` extended by `ys`. -/
theorem splitCh_last_append (c : Char) (xs ys : List Char) (h : c ∉ ys) :
    (splitCh c (xs ++ ys)).getLastD [] = (splitCh c xs).getLastD [] ++ ys := by
  induction xs with
  | nil => simp [splitCh_no_sep c ys h, splitCh]
  | cons x xs ih =>
    have hlen : (splitCh c (xs ++ ys)).length = (splitCh c xs).length := by
      rw [splitCh_length, splitCh_length, List.count_append,
        List.count_eq_zero.mpr h]
    simp only [List.cons_append, splitCh]
    rcases h1 : splitCh c (xs ++ ys) with _ | ⟨s1, t1⟩
    · exact absurd h1 (splitCh_ne_nil c _)
    rcases h2 : splitCh c xs with _ | ⟨s2, t2⟩
    · exact absurd h2 (splitCh_ne_nil c xs)
    rw [h1, h2] at ih hlen
    simp only [List.length_cons, Nat.add_right_cancel_iff] at hlen
    by_cases hx : x = c
    · simp only [if_pos hx, List.getLastD_cons]
      simpa only [List.getLastD_cons] using ih
    · simp only [if_neg hx]
      cases t1 with
      | nil =>
        cases t2 with
        | nil =>
          simp only [List.getLastD_cons, List.getLastD_nil] at ih ⊢
          simp [ih]
        | cons u2 v2 => simp at hlen
      | cons u1 v1 =>
        cases t2 with
        | nil => simp at hlen
        | cons u2 v2 =>
          simp only [List.getLastD_cons] at ih ⊢
          exact ih

/-! ### Suffix characterisation of the source validator -/

theorem strEndsWith_iff (s suf : String) :
    strEndsWith s suf = true ↔ ∃ t : String, s = t ++ suf := by
  unfold strEndsWith
  rw [List.isSuffixOf_iff_suffix]
  constructor
  · rintro ⟨t, ht⟩
    refine ⟨String.mk t, String.ext ?_⟩
    rw [String.data_append]
    exact ht.symm
  · rintro ⟨t, rfl⟩
    refine ⟨t.data, ?_⟩
    rw [String.data_append]

theorem validate_wasm_source_ok_iff (s p : String) :
    validate_wasm_source s = Except.ok p ↔
      p = s ∧ (s = "none" ∨ strEndsWith s ".wasm" = true) := by
  unfold validate_wasm_source
  by_cases h : s = "none" ∨ strEndsWith s ".wasm" = true
  · rw [if_pos h]
    simp only [Except.ok.injEq]
    constructor
    · intro hsp
      exact ⟨hsp.symm, h⟩
    · rintro ⟨rfl, -⟩
      rfl
  · rw [if_neg h]
    simp [h]

/-! ### `file_name`/`file_stem` on validator-accepted sources -/

theorem fileNameOf_endsWasm (s : String) (h : strEndsWith s ".wasm" = true) :
    ∃ b, fileNameOf s = some b ∧ ".wasm".data <:+ b := by
  have hsuf : ".wasm".data <:+ s.data := by
    rw [← List.isSuffixOf_iff_suffix]
    exact h
  obtain ⟨t, ht⟩ := hsuf
  have hlast : (splitCh '/' s.data).getLastD []
      = (splitCh '/' t).getLastD [] ++ ".wasm".data := by
    rw [← ht]
    exact splitCh_last_append '/' t _ (by decide)
  set b := (splitCh '/' t).getLastD [] ++ ".wasm".data with hb
  have hblen : 5 ≤ b.length := by
    rw [hb, List.length_append]
    simp
  have hbne : b ≠ [] := by
    intro he
    rw [he] at hblen
    simp at hblen
  have hLne : splitCh '/' s.data ≠ [] := splitCh_ne_nil _ _
  have hgetLast : (splitCh '/' s.data).getLast? = some b := by
    rw [List.getLast?_eq_getLast _ hLne]
    rw [List.getLastD_eq_getLast?, List.getLast?_eq_getLast _ hLne] at hlast
    exact congrArg some hlast
  obtain ⟨ys, hys⟩ := List.getLast?_eq_some_iff.mp hgetLast
  have h2 : b ≠ ['.'] := by
    intro he
    rw [he] at hblen
    simp at hblen
  have hpb : (fun seg => !(seg.isEmpty) && decide (seg ≠ ['.'])) b = true := by
    simp
    exact ⟨hbne, h2⟩
  have hfb : List.filter (fun seg => !(seg.isEmpty) && decide (seg ≠ ['.'])) [b] = [b] := by
    simp
    exact ⟨hbne, h2⟩
  have hcomp : pathComponents s
      = ys.filter (fun seg => !(seg.isEmpty) && decide (seg ≠ ['.'])) ++ [b] := by
    unfold pathComponents
    rw [hys, List.filter_append, hfb]
  refine ⟨b, ?_, ⟨_, rfl⟩⟩
  unfold fileNameOf
  rw [hcomp, List.getLast?_concat]
  have hdd : b ≠ ['.', '.'] := by
    intro he
    rw [he] at hblen
    simp at hblen
  simp [hdd]

theorem defaultNameOf_endsWasm (s : String) (h : strEndsWith s ".wasm" = true) :
    ∃ n, defaultNameOf s = some n := by
  obtain ⟨b, hb, -⟩ := fileNameOf_endsWasm s h
  exact ⟨String.mk (stemOfName b), by simp [defaultNameOf, hb]⟩

/-- Claim C3: the source-path validator accepts a string iff it is exactly
`"none"` or ends in `".wasm"`; on acceptance it returns the input itself
as the path, and on rejection it returns the fixed message naming the
required extension. -/
theorem claim_source_validator (s : String) :
    ((∃ p, validate_wasm_source s = Except.ok p)
        ↔ (s = "none" ∨ ∃ t : String, s = t ++ ".wasm"))
    ∧ (∀ p, validate_wasm_source s = Except.ok p → p = s)
    ∧ (¬(s = "none" ∨ ∃ t : String, s = t ++ ".wasm") →
        validate_wasm_source s
          = Except.error "The module source path must have a .wasm extension") := by
  refine ⟨?_, ?_, ?_⟩
  · constructor
    · rintro ⟨p, hp⟩
      have h := (validate_wasm_source_ok_iff s p).mp hp
      rcases h.2 with h1 | h2
      · exact Or.inl h1
      · exact Or.inr ((strEndsWith_iff s ".wasm").mp h2)
    · intro hcond
      refine ⟨s, (validate_wasm_source_ok_iff s s).mpr ⟨rfl, ?_⟩⟩
      rcases hcond with h1 | h2
      · exact Or.inl h1
      · exact Or.inr ((strEndsWith_iff s ".wasm").mpr h2)
  · intro p hp
    exact ((validate_wasm_source_ok_iff s p).mp hp).1
  · intro hcond
    unfold validate_wasm_source
    rw [if_neg]
    intro hc
    apply hcond
    rcases hc with h1 | h2
    · exact Or.inl h1
    · exact Or.inr ((strEndsWith_iff s ".wasm").mp h2)

/-- Witness for C3 at concrete inputs. -/
theorem claim_source_validator_witness :
    validate_wasm_source "app.wasm" = Except.ok "app.wasm"
    ∧ validate_wasm_source "x"
        = Except.error "The module source path must have a .wasm extension" := by
  constructor
  · obtain ⟨p, hp⟩ := (claim_source_validator "app.wasm").1.mpr (Or.inr ⟨"app", rfl⟩)
    have he := (claim_source_validator "app.wasm").2.1 p hp
    rw [he] at hp
    exact hp
  · apply (claim_source_validator "x").2.2
    rintro (he | ⟨t, ht⟩)
    · exact absurd he (by decide)
    · have hl := congrArg String.length ht
      rw [String.length_append] at hl
      have h1 : "x".length = 1 := rfl
      have h5 : ".wasm".length = 5 := rfl
      omega

/-- Claim C10: for every source accepted by the validator other than the
sentinel, the default-module-name derivation by `file_stem` succeeds, so
the `unwrap`s in the name-derivation step of the module loop cannot
panic. -/
theorem claim_file_stem_total (s p : String)
    (h : validate_wasm_source s = Except.ok p) (hne : p ≠ "none") :
    ∃ n, defaultNameOf p = some n := by
  obtain ⟨rfl, hcond⟩ := (validate_wasm_source_ok_iff s p).mp h
  rcases hcond with h1 | h2
  · exact absurd h1 hne
  · exact defaultNameOf_endsWasm p h2

/-- Witness for C10 at a concrete input. -/
theorem claim_file_stem_total_witness :
    validate_wasm_source "app.wasm" = Except.ok "app.wasm"
    ∧ "app.wasm" ≠ "none"
    ∧ ∃ n, defaultNameOf "app.wasm" = some n :=
  ⟨rfl, by decide, claim_file_stem_total "app.wasm" "app.wasm" rfl (by decide)⟩

/-- Claim C4: when the `k`-th console answer is the first one the
validator accepts, `ask_until_valid` returns that validated value, having
printed the validator's rejection message for each of the `k-1` earlier
answers, re-presenting the prompt with the same default `d` each time;
the loop has no attempt limit and never returns a rejection. -/
theorem claim_prompt_loop {α : Type} (validator : String → Except String α)
    (d : Option String) (bads errs : List String) (good : String) (v : α)
    (rest : List Ans)
    (hbad : bads.map (fun b => validator ((ask d b).getD ""))
        = errs.map Except.error)
    (hgood : validator ((ask d good).getD "") = Except.ok v) :
    ask_until_valid validator d (bads.map Ans.line ++ Ans.line good :: rest)
      = some (v, rest, errs) := by
  induction bads generalizing errs with
  | nil =>
    have herrs : errs = [] := by
      cases errs with
      | nil => rfl
      | cons e es => simp at hbad
    subst herrs
    simp [ask_until_valid, hgood]
  | cons b bads ih =>
    cases errs with
    | nil => simp at hbad
    | cons e es =>
      simp only [List.map_cons, List.cons.injEq] at hbad
      obtain ⟨hb, hrest⟩ := hbad
      simp only [List.map_cons, List.cons_append, ask_until_valid, hb]
      rw [List.append_eq, ih es hrest]

/-- Witness for C4: one rejected answer, then an accepted one. -/
theorem claim_prompt_loop_witness :
    ask_until_valid validate_wasm_source (some "entry.wasm")
        [Ans.line "bad.txt", Ans.line "ok.wasm"]
      = some ("ok.wasm", [],
          ["The module source path must have a .wasm extension"]) :=
  claim_prompt_loop validate_wasm_source (some "entry.wasm") ["bad.txt"]
    ["The module source path must have a .wasm extension"] "ok.wasm" "ok.wasm" []
    rfl rfl

/-- Claim C5: with no manifest file present, the seeded draft has the
directory's final path-component as package name, version `1.0.0`,
license `ISC`, exactly the conventional `entry`/`entry.wasm` module with
no environment and no interfaces, and absent commands and dependencies. -/
theorem claim_seed_manifest (dir : String) (nm : List Char)
    (h : fileNameOf dir = some nm) :
    seedManifest dir
      = some
        { base_directory_path := dir
          fs := none
          package :=
            { name := String.mk nm
              description := ""
              version := ⟨1, 0, 0, none, none⟩
              repository := none
              license := some "ISC"
              license_file := none
              homepage := none
              wasmer_extra_flags := none
              readme := none
              disable_command_rename := false }
          dependencies := none
          module := some [{ name := "entry", source := "entry.wasm",
                            abi := Abi.none, interfaces := none }]
          command := none } := by
  unfold seedManifest
  rw [h]
  rfl

/-- Witness for C5 on the directory `"mypkg"` of the spec's first
end-to-end scenario. -/
theorem claim_seed_manifest_witness :
    fileNameOf "mypkg" = some "mypkg".data
    ∧ seedManifest "mypkg"
      = some
        { base_directory_path := "mypkg"
          fs := none
          package :=
            { name := String.mk "mypkg".data
              description := ""
              version := ⟨1, 0, 0, none, none⟩
              repository := none
              license := some "ISC"
              license_file := none
              homepage := none
              wasmer_extra_flags := none
              readme := none
              disable_command_rename := false }
          dependencies := none
          module := some [{ name := "entry", source := "entry.wasm",
                            abi := Abi.none, interfaces := none }]
          command := none } :=
  ⟨rfl, claim_seed_manifest "mypkg" "mypkg".data rfl⟩

/-- Claim C9: the seeding path is partial — on a directory path with no
final normal component (such as `"/"` or a path ending in `".."`) the
`file_name().unwrap()` panics (modelled by `none`); seeding succeeds
exactly when the path has a final normal component. -/
theorem claim_seed_partiality :
    seedManifest "/" = none
    ∧ seedManifest "mydir/.." = none
    ∧ ∀ dir : String, (seedManifest dir = none ↔ fileNameOf dir = none) := by
  refine ⟨rfl, rfl, ?_⟩
  intro dir
  unfold seedManifest
  cases h : fileNameOf dir <;> simp

/-- Claim C6: force-mode persists unconditionally without consuming any
confirmation answer; without it one confirmation is consumed, acceptance
persists, and declining prints `"Aborted."`, leaves both files untouched,
and still ends the operation successfully. -/
theorem claim_confirm_persist (m : Manifest) (st : FsState)
    (confirms rest : List Bool) :
    confirmAndPersist true m st confirms
        = some (persistManifest m st, false, confirms)
    ∧ confirmAndPersist false m st (true :: rest)
        = some (persistManifest m st, false, rest)
    ∧ confirmAndPersist false m st (false :: rest) = some (st, true, rest)
    ∧ (persistManifest m st).manifest = some m := by
  refine ⟨rfl, ?_, ?_, rfl⟩ <;> simp [confirmAndPersist]

/-! ### The ignore-list updater -/

theorem getLastD_of_ne_nil {α : Type} (l : List α) (a b : α) (h : l ≠ []) :
    l.getLastD a = l.getLastD b := by
  rw [List.getLastD_eq_getLast?, List.getLastD_eq_getLast?,
    List.getLast?_eq_getLast l h]
  rfl

/-- Splitting a list that ends in a separator: the final segment is
empty. -/
theorem splitCh_last_sep (c : Char) (xs : List Char) :
    (splitCh c (xs ++ [c])).getLastD [] = [] := by
  induction xs with
  | nil => simp [splitCh]
  | cons x xs ih =>
    simp only [List.cons_append, splitCh]
    rcases h1 : splitCh c (xs ++ [c]) with _ | ⟨s1, t1⟩
    · exact absurd h1 (splitCh_ne_nil c _)
    have ht1 : t1 ≠ [] := by
      have hlen := splitCh_length c (xs ++ [c])
      rw [h1, List.count_append] at hlen
      simp only [List.length_cons] at hlen
      intro he
      rw [he] at hlen
      simp [List.count_cons] at hlen
    rw [h1] at ih
    by_cases hx : x = c
    · simp only [if_pos hx, List.getLastD_cons]
      simpa only [List.getLastD_cons] using ih
    · simp only [if_neg hx, List.getLastD_cons]
      simp only [List.getLastD_cons] at ih
      rw [getLastD_of_ne_nil t1 (x :: s1) s1 ht1]
      exact ih

/-- After appending `"\nwapm_packages"`, some line contains the token. -/
theorem gitignore_append_has_token (c : String) :
    ∃ l ∈ rustLines (c ++ "\nwapm_packages"),
      containsSub l "wapm_packages".data = true := by
  have hdata : (c ++ "\nwapm_packages").data
      = c.data ++ '\n' :: "wapm_packages".data := by
    rw [String.data_append]
  have hlast : (splitCh '\n' (c.data ++ '\n' :: "wapm_packages".data)).getLastD []
      = "wapm_packages".data := by
    have h1 := splitCh_last_append '\n' (c.data ++ ['\n']) "wapm_packages".data
      (by decide)
    rw [List.append_assoc] at h1
    rw [splitCh_last_sep '\n' c.data] at h1
    simpa using h1
  have hLne : splitCh '\n' (c.data ++ '\n' :: "wapm_packages".data) ≠ [] :=
    splitCh_ne_nil _ _
  have hgetLast : (splitCh '\n' (c.data ++ '\n' :: "wapm_packages".data)).getLast?
      = some "wapm_packages".data := by
    rw [List.getLast?_eq_getLast _ hLne]
    rw [List.getLastD_eq_getLast?, List.getLast?_eq_getLast _ hLne] at hlast
    exact congrArg some hlast
  have hmem : "wapm_packages".data
      ∈ splitCh '\n' (c.data ++ '\n' :: "wapm_packages".data) := by
    obtain ⟨ys, hys⟩ := List.getLast?_eq_some_iff.mp hgetLast
    rw [hys]
    simp
  refine ⟨"wapm_packages".data, ?_, by decide⟩
  simp only [rustLines, hdata]
  rw [if_neg (by rw [hgetLast]; simp)]
  have hstrip : stripCR "wapm_packages".data = "wapm_packages".data := by decide
  have hmm := List.mem_map_of_mem stripCR hmem
  rw [hstrip] at hmm
  exact hmm

/-- Claim C7: the ignore-list updater appends `"\nwapm_packages"` exactly
when no line contains the token, leaves the file unmodified when some
line does, fails when the file is absent, and is idempotent: a second
application returns the first application's content unchanged. -/
theorem claim_gitignore_idempotent :
    (∀ c c1 : String,
        init_gitignore (some c) = Except.ok c1 →
        init_gitignore (some c1) = Except.ok c1)
    ∧ (∀ c : String,
        (∃ l ∈ rustLines c, containsSub l "wapm_packages".data = true) →
        init_gitignore (some c) = Except.ok c)
    ∧ (∀ c : String,
        (¬∃ l ∈ rustLines c, containsSub l "wapm_packages".data = true) →
        init_gitignore (some c) = Except.ok (c ++ "\nwapm_packages"))
    ∧ init_gitignore none = Except.error "No such file or directory" := by
  have hpos : ∀ c : String,
      (∃ l ∈ rustLines c, containsSub l "wapm_packages".data = true) →
      init_gitignore (some c) = Except.ok c := by
    intro c hc
    simp only [init_gitignore]
    rw [if_pos]
    rw [List.any_eq_true]
    obtain ⟨l, hl, hcs⟩ := hc
    exact ⟨l, hl, hcs⟩
  have hneg : ∀ c : String,
      (¬∃ l ∈ rustLines c, containsSub l "wapm_packages".data = true) →
      init_gitignore (some c) = Except.ok (c ++ "\nwapm_packages") := by
    intro c hc
    simp only [init_gitignore]
    rw [if_neg]
    intro hany
    rw [List.any_eq_true] at hany
    obtain ⟨l, hl, hcs⟩ := hany
    exact hc ⟨l, hl, hcs⟩
  refine ⟨?_, hpos, hneg, rfl⟩
  intro c c1 h
  by_cases hc : ∃ l ∈ rustLines c, containsSub l "wapm_packages".data = true
  · rw [hpos c hc] at h
    cases h
    exact hpos c hc
  · rw [hneg c hc] at h
    cases h
    exact hpos _ (gitignore_append_has_token c)

/-- Witness for C7: one application appends the entry, a second one
leaves the result unchanged. -/
theorem claim_gitignore_idempotent_witness :
    init_gitignore (some "node_modules")
        = Except.ok "node_modules\nwapm_packages"
    ∧ init_gitignore (some "node_modules\nwapm_packages")
        = Except.ok "node_modules\nwapm_packages" := by
  have h1 : init_gitignore (some "node_modules")
      = Except.ok "node_modules\nwapm_packages" := rfl
  exact ⟨h1, claim_gitignore_idempotent.1 "node_modules" _ h1⟩

/-! ### Decimal numerals round-trip -/

theorem isDigit_toNat_bounds (c : Char) (h : c.isDigit = true) :
    48 ≤ c.toNat ∧ c.toNat ≤ 57 := by
  simp only [Char.isDigit, ge_iff_le, Bool.and_eq_true, decide_eq_true_eq,
    UInt32.le_def, BitVec.le_def] at h
  exact h

theorem char_zero_of_toNat (c : Char) (h : c.toNat = 48) : c = '0' := by
  apply Char.ext
  apply UInt32.eq_of_toBitVec_eq
  apply BitVec.eq_of_toNat_eq
  exact h

theorem charOfNat_digit (c : Char) (h : c.isDigit = true) :
    Char.ofNat (48 + (c.toNat - 48)) = c := by
  obtain ⟨h1, h2⟩ := isDigit_toNat_bounds c h
  have he : 48 + (c.toNat - 48) = c.toNat := by omega
  rw [he, Char.ofNat_toNat]

theorem digitsToNat_append (ds : List Char) (c : Char) :
    digitsToNat (ds ++ [c]) = 10 * digitsToNat ds + (c.toNat - 48) := by
  unfold digitsToNat
  rw [List.foldl_append]
  rfl

theorem foldl_digits_ge (t : List Char) (a : Nat) :
    a ≤ t.foldl (fun x c => 10 * x + (c.toNat - 48)) a := by
  induction t generalizing a with
  | nil => simp
  | cons c t ih =>
    simp only [List.foldl_cons]
    exact le_trans (by omega) (ih (10 * a + (c.toNat - 48)))

theorem digitsToNat_pos (d : Char) (t : List Char) (hd : d.isDigit = true)
    (h0 : d ≠ '0') : 1 ≤ digitsToNat (d :: t) := by
  unfold digitsToNat
  simp only [List.foldl_cons]
  obtain ⟨hb1, hb2⟩ := isDigit_toNat_bounds d hd
  have hne : d.toNat ≠ 48 := fun he => h0 (char_zero_of_toNat d he)
  exact le_trans (by omega) (foldl_digits_ge t (10 * 0 + (d.toNat - 48)))

theorem natToDigits_digitsToNat (ds : List Char) (hv : validNum ds = true)
    (hd : ∀ c ∈ ds, c.isDigit = true) : natToDigits (digitsToNat ds) = ds := by
  induction ds using List.reverseRecOn with
  | nil => simp [validNum] at hv
  | append_singleton ds c ih =>
    have hdc : c.isDigit = true := hd c (by simp)
    obtain ⟨hb1, hb2⟩ := isDigit_toNat_bounds c hdc
    cases dsn : ds with
    | nil =>
      simp only [List.nil_append]
      have hval : digitsToNat [c] = c.toNat - 48 := by
        unfold digitsToNat
        simp
      rw [hval, natToDigits, if_pos (by omega)]
      rw [charOfNat_digit c hdc]
    | cons d t =>
      have hdne : ds ≠ [] := by rw [dsn]; simp
      have hlen2 : 2 ≤ (ds ++ [c]).length := by
        rw [dsn]
        simp
      have hhead : ds.head? ≠ some '0' := by
        unfold validNum at hv
        simp only [Bool.and_eq_true, Bool.or_eq_true, beq_iff_eq, bne_iff_ne,
          Bool.not_eq_true', List.isEmpty_eq_false] at hv
        rcases hv.2 with hl | hh
        · omega
        · rwa [List.head?_append_of_ne_nil _ hdne] at hh
      have hvds : validNum ds = true := by
        unfold validNum
        simp only [Bool.and_eq_true, Bool.or_eq_true, beq_iff_eq, bne_iff_ne,
          Bool.not_eq_true', List.isEmpty_eq_false]
        exact ⟨hdne, Or.inr hhead⟩
      have hdds : ∀ x ∈ ds, x.isDigit = true :=
        fun x hx => hd x (List.mem_append_left _ hx)
      have hdne0 : d ≠ '0' := by
        intro he
        apply hhead
        rw [dsn, he]
        rfl
      have ha : 1 ≤ digitsToNat ds := by
        rw [dsn]
        exact digitsToNat_pos d t (hdds d (by rw [dsn]; simp)) hdne0
      rw [← dsn]
      rw [digitsToNat_append, natToDigits, if_neg (by omega)]
      have hdiv : (10 * digitsToNat ds + (c.toNat - 48)) / 10 = digitsToNat ds := by
        rw [Nat.mul_add_div (by omega)]
        omega
      have hmod : (10 * digitsToNat ds + (c.toNat - 48)) % 10 = c.toNat - 48 := by
        rw [Nat.mul_add_mod]
        omega
      rw [hdiv, hmod, ih hvds hdds, charOfNat_digit c hdc]

/-! ### Version parsing reconstruction -/

theorem parseNum_recon (cs : List Char) (n : Nat) (r : List Char)
    (h : parseNum cs = some (n, r)) : natToDigits n ++ r = cs := by
  unfold parseNum at h
  by_cases hv : validNum (cs.takeWhile Char.isDigit) = true
  · rw [if_pos hv] at h
    obtain ⟨hn, hr⟩ : digitsToNat (cs.takeWhile Char.isDigit) = n
        ∧ cs.dropWhile Char.isDigit = r := by
      cases h
      exact ⟨rfl, rfl⟩
    rw [← hn, ← hr,
      natToDigits_digitsToNat _ hv (fun c hc => List.mem_takeWhile_imp hc)]
    exact List.takeWhile_append_dropWhile Char.isDigit cs
  · rw [if_neg hv] at h
    cases h

theorem expectChar_recon (c : Char) (cs r : List Char)
    (h : expectChar c cs = some r) : c :: r = cs := by
  unfold expectChar at h
  split at h
  · cases h
  · rename_i x xs
    by_cases hx : x = c
    · rw [if_pos hx] at h
      cases h
      rw [hx]
    · rw [if_neg hx] at h
      cases h

theorem parsePre_recon (cs : List Char) (pre : Option String) (r : List Char)
    (h : parsePre cs = some (pre, r)) : preChunk pre ++ r = cs := by
  unfold parsePre at h
  split at h
  · cases h
    rfl
  · rename_i r0
    by_cases hv : validIdent (r0.takeWhile (fun c => c ≠ '+')) = true
    · rw [if_pos hv] at h
      cases h
      simp only [preChunk, List.cons_append, List.cons.injEq, true_and]
      exact List.takeWhile_append_dropWhile _ r0
    · rw [if_neg hv] at h
      cases h
  · cases h
    rfl
  · cases h

theorem parseBuild_recon (cs : List Char) (b : Option String)
    (h : parseBuild cs = some b) : buildChunk b = cs := by
  unfold parseBuild at h
  split at h
  · cases h
    rfl
  · rename_i r0
    by_cases hv : validIdent r0 = true
    · rw [if_pos hv] at h
      cases h
      rfl
    · rw [if_neg hv] at h
      cases h
  · cases h

/-- Claim C8: every string the version validator accepts round-trips: the
parsed value re-rendered through the semantic-version formatter is the
(already normalized) input string itself. -/
theorem claim_version_roundtrip (s : String) (v : SemVer)
    (h : parseVersion s = some v) : renderVersion v = s := by
  unfold parseVersion at h
  cases hp1 : parseNum s.data with
  | none => rw [hp1] at h; cases h
  | some pr1 =>
  obtain ⟨maj, r1⟩ := pr1
  rw [hp1] at h
  simp only [Option.bind_eq_bind, Option.some_bind] at h
  cases hp2 : expectChar '.' r1 with
  | none => rw [hp2] at h; cases h
  | some r2 =>
  rw [hp2] at h
  simp only [Option.some_bind] at h
  cases hp3 : parseNum r2 with
  | none => rw [hp3] at h; cases h
  | some pr3 =>
  obtain ⟨minr, r3⟩ := pr3
  rw [hp3] at h
  simp only [Option.some_bind] at h
  cases hp4 : expectChar '.' r3 with
  | none => rw [hp4] at h; cases h
  | some r4 =>
  rw [hp4] at h
  simp only [Option.some_bind] at h
  cases hp5 : parseNum r4 with
  | none => rw [hp5] at h; cases h
  | some pr5 =>
  obtain ⟨pat, r5⟩ := pr5
  rw [hp5] at h
  simp only [Option.some_bind] at h
  cases hp6 : parsePre r5 with
  | none => rw [hp6] at h; cases h
  | some pr6 =>
  obtain ⟨pre, r6⟩ := pr6
  rw [hp6] at h
  simp only [Option.some_bind] at h
  cases hp7 : parseBuild r6 with
  | none => rw [hp7] at h; cases h
  | some build =>
  rw [hp7] at h
  simp only [Option.some_bind, Option.pure_def, Option.some.injEq] at h
  subst h
  have e1 := parseNum_recon _ _ _ hp1
  have e2 := expectChar_recon _ _ _ hp2
  have e3 := parseNum_recon _ _ _ hp3
  have e4 := expectChar_recon _ _ _ hp4
  have e5 := parseNum_recon _ _ _ hp5
  have e6 := parsePre_recon _ _ _ hp6
  have e7 := parseBuild_recon _ _ hp7
  apply String.ext
  show natToDigits maj ++ '.' :: natToDigits minr ++ '.' :: natToDigits pat
      ++ preChunk pre ++ buildChunk build = s.data
  rw [← e1, ← e2, ← e3, ← e4, ← e5, ← e6, ← e7]
  simp [List.append_assoc]

/-- Witness for C8 on a concrete version string with pre-release and
build metadata. -/
theorem claim_version_roundtrip_witness :
    parseVersion "1.20.3-alpha.1+build7"
        = some ⟨1, 20, 3, some "alpha.1", some "build7"⟩
    ∧ renderVersion ⟨1, 20, 3, some "alpha.1", some "build7"⟩
        = "1.20.3-alpha.1+build7" := by
  have h : parseVersion "1.20.3-alpha.1+build7"
      = some ⟨1, 20, 3, some "alpha.1", some "build7"⟩ := by rfl
  exact ⟨h, claim_version_roundtrip _ _ h⟩

/-! ### The module-collection loop -/

theorem ask_until_valid_line_ok {α : Type} (validator : String → Except String α)
    (d : Option String) (typed : String) (v : α) (rest : List Ans)
    (ht : typed ≠ "") (hv : validator typed = Except.ok v) :
    ask_until_valid validator d (Ans.line typed :: rest) = some (v, rest, []) := by
  have ha : (ask d typed).getD "" = typed := by
    simp only [ask]
    rw [if_neg ht, if_neg ht]
    rfl
  simp only [ask_until_valid, ha, hv]

/-- Claim C1: if the very first module-source prompt's accepted answer is
the sentinel `"none"`, the collection loop ends at once with both
collections empty, and the finalized draft has `modules = None` and
`commands = None`: no module is added and no command is ever created. -/
theorem claim_module_loop_none_first (vName : String → Except String String)
    (m : Manifest) (ans rest : List Ans) (msgs : List String)
    (h : ask_until_valid validate_wasm_source (some "entry.wasm") ans
        = some ("none", rest, msgs)) :
    applyModuleLoop vName m ans
      = some ({ m with module := none, command := none }, rest) := by
  unfold applyModuleLoop
  simp only [runModuleLoop, List.length_nil, if_true]
  rw [h]
  simp

/-- Witness for C1: the sentinel as very first answer, on the seed-shaped
draft. -/
theorem claim_module_loop_none_first_witness :
    ask_until_valid validate_wasm_source (some "entry.wasm") [Ans.line "none"]
      = some ("none", [], [])
    ∧ applyModuleLoop sampleNameValidator sampleManifest [Ans.line "none"]
      = some ({ sampleManifest with module := none, command := none }, []) :=
  ⟨rfl, claim_module_loop_none_first sampleNameValidator sampleManifest _ _ _ rfl⟩

theorem abiOfSel_other (n : Nat) (h1 : n ≠ 1) (h2 : n ≠ 2) :
    abiOfSel n = (Abi.none, none) := by
  unfold abiOfSel
  split
  · exact absurd rfl h1
  · exact absurd rfl h2
  · rfl

theorem planAnswers_length_ge (p : ModPlan) : 3 ≤ (planAnswers p).length := by
  unfold planAnswers
  by_cases h : p.abiSel = 1 ∨ p.abiSel = 2 <;> simp [h]

theorem plansAnswers_length_ge (ps : List ModPlan) :
    ps.length ≤ (plansAnswers ps).length := by
  induction ps with
  | nil => simp [plansAnswers]
  | cons p ps ih =>
    have h3 := planAnswers_length_ge p
    simp only [plansAnswers, List.map_cons, List.flatten_cons,
      List.length_append, List.length_cons] at ih ⊢
    omega

theorem length_filterMap_planCommand (ps : List ModPlan) :
    (ps.filterMap planCommand).length
      = (ps.filter
          (fun p => decide ((p.abiSel = 1 ∨ p.abiSel = 2) ∧ p.cmd ≠ ""))).length := by
  induction ps with
  | nil => rfl
  | cons p ps ih =>
    by_cases h : (p.abiSel = 1 ∨ p.abiSel = 2) ∧ p.cmd ≠ ""
    · simp [List.filterMap_cons, List.filter_cons, planCommand, h, ih]
    · simp [List.filterMap_cons, List.filter_cons, planCommand, h, ih]

/-- The module-collection loop on a well-formed structured session: it
accepts each planned module in turn, stops at the sentinel, and produces
exactly the planned modules and the planned commands. -/
theorem runModuleLoop_plans (vName : String → Except String String)
    (plans : List ModPlan) :
    ∀ (fuel : Nat) (mods : List Module) (cmds : List Command) (rest : List Ans),
    (∀ p ∈ plans, PlanOk vName p) → plans.length < fuel →
    runModuleLoop vName fuel (plansAnswers plans ++ Ans.line "none" :: rest) mods cmds
      = some (mods ++ plans.map planModule, cmds ++ plans.filterMap planCommand,
          rest) := by
  induction plans with
  | nil =>
    intro fuel mods cmds rest hok hfuel
    cases fuel with
    | zero => exact absurd hfuel (by simp)
    | succ f =>
      simp only [plansAnswers, List.map_nil, List.flatten_nil, List.nil_append]
      simp only [runModuleLoop]
      rw [ask_until_valid_line_ok validate_wasm_source _ "none" "none" rest
        (by decide) rfl]
      simp
  | cons p ps ih =>
    intro fuel mods cmds rest hok hfuel
    obtain ⟨hsrc_ne, hsrc_nnone, hsrc_ends, hname_ne, hname_ok, hcmd_ne, hcmd_ok⟩ :=
      hok p (by simp)
    have hok' : ∀ q ∈ ps, PlanOk vName q := fun q hq => hok q (by simp [hq])
    cases fuel with
    | zero => exact absurd hfuel (by simp)
    | succ f =>
      have hfuel' : ps.length < f := by
        simp only [List.length_cons] at hfuel
        omega
      have hvsrc : validate_wasm_source p.src = Except.ok p.src := by
        unfold validate_wasm_source
        rw [if_pos (Or.inr hsrc_ends)]
      obtain ⟨defName, hdef⟩ := defaultNameOf_endsWasm p.src hsrc_ends
      have hvcmd : validate_commands vName p.cmd = Except.ok p.cmd := by
        unfold validate_commands
        rw [if_neg hcmd_ne]
        exact hcmd_ok
      have hans : plansAnswers (p :: ps) ++ Ans.line "none" :: rest
          = Ans.line p.src :: Ans.line p.name :: Ans.sel p.abiSel ::
            ((if p.abiSel = 1 ∨ p.abiSel = 2 then [Ans.line p.cmd] else [])
              ++ (plansAnswers ps ++ Ans.line "none" :: rest)) := by
        simp [plansAnswers, planAnswers, List.append_assoc]
      rw [hans]
      simp only [runModuleLoop]
      rw [ask_until_valid_line_ok validate_wasm_source _ p.src p.src _
        hsrc_ne hvsrc]
      simp only [if_neg hsrc_nnone, hdef]
      rw [ask_until_valid_line_ok vName _ p.name p.name _ hname_ne hname_ok]
      by_cases hsel : p.abiSel = 1 ∨ p.abiSel = 2
      · have habi : (abiOfSel p.abiSel).1 = Abi.wasi
            ∨ (abiOfSel p.abiSel).1 = Abi.emscripten := by
          rcases hsel with h1 | h2
          · rw [h1]
            exact Or.inl rfl
          · rw [h2]
            exact Or.inr rfl
        simp only [if_pos hsel, if_pos habi, List.singleton_append]
        rw [ask_until_valid_line_ok (validate_commands vName) _ p.cmd p.cmd _
          hcmd_ne hvcmd]
        simp only [if_pos hcmd_ne]
        rw [ih f _ _ rest hok' hfuel']
        have hpc : planCommand p
            = some { name := p.cmd, module := p.name, main_args := none,
                     package := none } := by
          unfold planCommand
          rw [if_pos ⟨hsel, hcmd_ne⟩]
        simp [planModule, hpc, List.filterMap_cons, List.append_assoc]
      · have h1 : p.abiSel ≠ 1 := fun he => hsel (Or.inl he)
        have h2 : p.abiSel ≠ 2 := fun he => hsel (Or.inr he)
        have habi : ¬((abiOfSel p.abiSel).1 = Abi.wasi
            ∨ (abiOfSel p.abiSel).1 = Abi.emscripten) := by
          rw [abiOfSel_other p.abiSel h1 h2]
          simp
        simp only [if_neg hsel, if_neg habi, List.nil_append]
        rw [ih f _ _ rest hok' hfuel']
        have hpc : planCommand p = none := by
          unfold planCommand
          rw [if_neg (fun hc => hsel hc.1)]
        simp [planModule, hpc, List.filterMap_cons, List.append_assoc]

/-- Claim C2: a session of `N` accepted modules of which exactly `K` have
a non-None environment selection and nonempty accepted command text yields
a finalized command collection with exactly `K` entries, each one's
`owning-module` field equal to the name of a module collected in the same
session (a command is only created when its module's selection is WASI or
Emscripten). -/
theorem claim_module_loop_commands (vName : String → Except String String)
    (plans : List ModPlan) (m : Manifest) (rest : List Ans)
    (h : ∀ p ∈ plans, PlanOk vName p) :
    applyModuleLoop vName m (plansAnswers plans ++ Ans.line "none" :: rest)
      = some ({ m with
            module := if (plans.map planModule).isEmpty then none
                      else some (plans.map planModule)
            command := if (plans.filterMap planCommand).isEmpty then none
                       else some (plans.filterMap planCommand) }, rest)
    ∧ (plans.filterMap planCommand).length
        = (plans.filter
            (fun p => decide ((p.abiSel = 1 ∨ p.abiSel = 2) ∧ p.cmd ≠ ""))).length
    ∧ ∀ c ∈ plans.filterMap planCommand,
        c.module ∈ (plans.map planModule).map Module.name := by
  refine ⟨?_, length_filterMap_planCommand plans, ?_⟩
  · unfold applyModuleLoop
    have hfuel : plans.length
        < (plansAnswers plans ++ Ans.line "none" :: rest).length + 1 := by
      have hge := plansAnswers_length_ge plans
      simp only [List.length_append, List.length_cons]
      omega
    rw [runModuleLoop_plans vName plans _ [] [] rest h hfuel]
    simp
  · intro c hc
    obtain ⟨p, hp, hpc⟩ := List.mem_filterMap.mp hc
    have hcm : c.module = p.name := by
      unfold planCommand at hpc
      by_cases hcond : (p.abiSel = 1 ∨ p.abiSel = 2) ∧ p.cmd ≠ ""
      · rw [if_pos hcond] at hpc
        cases hpc
        rfl
      · rw [if_neg hcond] at hpc
        cases hpc
    have hpm : (planModule p).name = p.name := rfl
    rw [hcm, ← hpm]
    exact List.mem_map_of_mem Module.name (List.mem_map_of_mem planModule hp)

/-- Witness for C2: two modules, one WASI with a command, one without
ABI, on a concrete draft. -/
theorem claim_module_loop_commands_witness :
    (∀ p ∈ samplePlans, PlanOk sampleNameValidator p)
    ∧ (applyModuleLoop sampleNameValidator sampleManifest
          (plansAnswers samplePlans ++ Ans.line "none" :: [])
        = some ({ sampleManifest with
              module := if (samplePlans.map planModule).isEmpty then none
                        else some (samplePlans.map planModule)
              command := if (samplePlans.filterMap planCommand).isEmpty then none
                         else some (samplePlans.filterMap planCommand) }, [])
      ∧ (samplePlans.filterMap planCommand).length
          = (samplePlans.filter
              (fun p => decide ((p.abiSel = 1 ∨ p.abiSel = 2) ∧ p.cmd ≠ ""))).length
      ∧ ∀ c ∈ samplePlans.filterMap planCommand,
          c.module ∈ (samplePlans.map planModule).map Module.name) := by
  have hok : ∀ p ∈ samplePlans, PlanOk sampleNameValidator p := by
    intro p hp
    simp only [samplePlans, List.mem_cons, List.not_mem_nil, or_false] at hp
    rcases hp with rfl | rfl <;>
      exact ⟨by decide, by decide, by decide, by decide, rfl, by decide, rfl⟩
  exact ⟨hok,
    claim_module_loop_commands sampleNameValidator samplePlans sampleManifest [] hok⟩

end WapmInit
